import Mathlib

/-!
Verification of the query-sharding middleware and the series merge iterator
of this repository against its specification.

The middleware (`querySharding.Do`, `shardQuery`, `mapEngineError`) and the
write-forwarding `Promise` are embedded from the Go source.  The series merge
iterator implementation is not present in the source tree (only its tests
are), so it is modelled from the specification, as marked on each definition.
-/

namespace Mimir

/-! ## Series merge iterator

A sample is a (timestamp, value) pair.  Timestamps are milliseconds; sample
values are opaque payload, modelled as integers. -/

abbrev Sample := Int × Int

/-- A chunk: an immutable run of time-ordered samples with an inclusive
[minTime, maxTime] bound in milliseconds.  The encoded payload is modelled
already decoded into its sample list. -/
structure Chunk where
  minTime : Int
  maxTime : Int
  samples : List Sample
  deriving DecidableEq, Repr

/-- Modelled from the spec: chunk processing order of the merge iterator —
chunks are ordered by minTime ascending, ties broken by maxTime ascending.
`chunkLess` is the strict part of that order, used for a stable sort. -/
def chunkLess (a b : Chunk) : Bool :=
  decide (a.minTime < b.minTime) ||
    (decide (a.minTime = b.minTime) && decide (a.maxTime < b.maxTime))

/-- Insert a chunk into an already sorted chunk list, after any chunk it
does not strictly precede (keeping the sort stable). -/
def insertChunk (c : Chunk) : List Chunk → List Chunk
  | [] => [c]
  | d :: ds => if chunkLess c d then c :: d :: ds else d :: insertChunk c ds

/-- Modelled from the spec: sort the chunk list by (minTime, maxTime)
ascending before iteration. -/
def sortChunks (cs : List Chunk) : List Chunk :=
  cs.foldr insertChunk []

/-- `gtLast lastT t` holds when timestamp `t` is strictly greater than the
last yielded timestamp (or when nothing has been yielded yet). -/
def gtLast : Option Int → Int → Bool
  | none, _ => true
  | some l, t => decide (l < t)

/-- Size measure of the remaining per-chunk sample lists: total number of
remaining samples plus the number of remaining chunks. -/
def chunksMeasure (ls : List (List Sample)) : Nat :=
  (ls.map List.length).sum + ls.length

/-- Modelled from the spec: one `Next` step of the merge iterator over the
remaining per-chunk sample lists.  It walks the chunks in processing order,
skips exhausted chunks and every sample whose timestamp is not strictly
greater than the last yielded timestamp, and yields the first remaining
sample that is, together with the remaining state. -/
def nextAux (lastT : Option Int) : List (List Sample) → Option (Sample × List (List Sample))
  | [] => none
  | [] :: cs => nextAux lastT cs
  | (p :: s) :: cs =>
      if gtLast lastT p.1 then some (p, s :: cs) else nextAux lastT (s :: cs)
  termination_by ls => chunksMeasure ls
  decreasing_by
    all_goals simp [chunksMeasure] <;> omega

/-- Modelled from the spec: one `Seek target` step of the merge iterator.
Like `nextAux`, but the yielded sample must additionally have timestamp at
or after the seek target; samples before the target are skipped. -/
def seekAux (lastT : Option Int) (target : Int) :
    List (List Sample) → Option (Sample × List (List Sample))
  | [] => none
  | [] :: cs => seekAux lastT target cs
  | (p :: s) :: cs =>
      if gtLast lastT p.1 && decide (target ≤ p.1) then some (p, s :: cs)
      else seekAux lastT target (s :: cs)
  termination_by ls => chunksMeasure ls
  decreasing_by
    all_goals simp [chunksMeasure] <;> omega

theorem nextAux_measure (lastT : Option Int) (ls : List (List Sample)) :
    ∀ p r, nextAux lastT ls = some (p, r) → chunksMeasure r < chunksMeasure ls := by
  induction ls using nextAux.induct lastT with
  | case1 => intro p r h; simp [nextAux] at h
  | case2 cs ih =>
      intro p r h
      rw [nextAux] at h
      have := ih p r h
      simp [chunksMeasure] at this ⊢
      omega
  | case3 p s cs hgt =>
      intro q r h
      rw [nextAux] at h
      simp [hgt] at h
      obtain ⟨hq, hr⟩ := h
      subst hr
      simp [chunksMeasure]
  | case4 p s cs hgt ih =>
      intro q r h
      rw [nextAux] at h
      simp [hgt] at h
      have := ih q r h
      simp [chunksMeasure] at this ⊢
      omega

/-- Modelled from the spec: the full sample stream produced by repeatedly
calling `Next` from a given iterator state. -/
def streamAux (lastT : Option Int) (ls : List (List Sample)) : List Sample :=
  match h : nextAux lastT ls with
  | none => []
  | some (p, r) => p :: streamAux (some p.1) r
  termination_by chunksMeasure ls
  decreasing_by exact nextAux_measure lastT ls p r h

/-- Modelled from the spec: the state of a series merge iterator — the
remaining per-chunk sample lists in processing order, the last yielded
timestamp, and the construction error if any. -/
structure SeriesIter where
  rest : List (List Sample)
  lastT : Option Int
  err : Option String
  deriving DecidableEq, Repr

/-- Modelled from the spec and the tests of `newBlockQuerierSeries` (the
implementation itself is absent from the source tree): constructing an
iterator from an empty chunk list is an error ("no chunks"); otherwise the
chunks are sorted by (minTime, maxTime) and exposed for iteration. -/
def mkSeriesIterator (chunks : List Chunk) : SeriesIter :=
  if chunks.isEmpty then ⟨[], none, some "no chunks"⟩
  else ⟨(sortChunks chunks).map Chunk.samples, none, none⟩

/-- Modelled from the spec: `Next` on the iterator.  Returns the yielded
sample and successor state, or `none` on exhaustion or when the iterator is
in an error state. -/
def SeriesIter.next (it : SeriesIter) : Option (Sample × SeriesIter) :=
  if it.err.isSome then none
  else
    match nextAux it.lastT it.rest with
    | none => none
    | some (p, r) => some (p, ⟨r, some p.1, it.err⟩)

/-- Modelled from the spec: `Seek target` on the iterator. -/
def SeriesIter.seek (it : SeriesIter) (target : Int) : Option (Sample × SeriesIter) :=
  if it.err.isSome then none
  else
    match seekAux it.lastT target it.rest with
    | none => none
    | some (p, r) => some (p, ⟨r, some p.1, it.err⟩)

/-- The sample stream observed by a caller that repeatedly calls `Next`
until it returns false. -/
def nextStream (it : SeriesIter) : List Sample :=
  if it.err.isSome then [] else streamAux it.lastT it.rest

/-- The sample stream observed by a caller that calls `Seek` once per target
timestamp, in order, stopping at the first failed call. -/
def seekRun : SeriesIter → List Int → List Sample
  | _, [] => []
  | it, t :: ts =>
      match it.seek t with
      | none => []
      | some (p, it') => p :: seekRun it' ts

/-- The sample stream observed by a caller that alternates `Seek` (at the
next target timestamp) and `Next`, starting with `Seek` when the flag is
true, stopping at the first failed call. -/
def altRun : SeriesIter → Bool → List Int → List Sample
  | _, _, [] => []
  | it, useSeek, t :: ts =>
      match (if useSeek then it.seek t else it.next) with
      | none => []
      | some (p, it') => p :: altRun it' (!useSeek) ts

theorem nextAux_gtLast (lastT : Option Int) (ls : List (List Sample)) :
    ∀ p r, nextAux lastT ls = some (p, r) → gtLast lastT p.1 = true := by
  induction ls using nextAux.induct lastT with
  | case1 => intro p r h; simp [nextAux] at h
  | case2 cs ih =>
      intro p r h
      rw [nextAux] at h
      exact ih p r h
  | case3 p s cs hgt =>
      intro q r h
      rw [nextAux] at h
      simp [hgt] at h
      obtain ⟨hq, _⟩ := h
      rw [← hq]
      exact hgt
  | case4 p s cs hgt ih =>
      intro q r h
      rw [nextAux] at h
      simp [hgt] at h
      exact ih q r h

theorem gtLast_trans (lastT : Option Int) (a b : Int)
    (h1 : gtLast lastT a = true) (h2 : a < b) : gtLast lastT b = true := by
  cases lastT with
  | none => rfl
  | some l =>
      simp [gtLast] at h1 ⊢
      omega

/-- If one `Next` step yields nothing, the stream is empty; otherwise the
stream is the yielded sample followed by the stream of the successor
state. -/
theorem streamAux_eq (lastT : Option Int) (ls : List (List Sample)) :
    streamAux lastT ls =
      match nextAux lastT ls with
      | none => []
      | some (p, r) => p :: streamAux (some p.1) r := by
  conv_lhs => rw [streamAux]
  split
  · rename_i heq; rw [heq]
  · rename_i p r heq; rw [heq]

/-- Every sample in the stream is strictly later than the last yielded
timestamp, and the stream is strictly increasing in time. -/
theorem streamAux_increasing (lastT : Option Int) (ls : List (List Sample)) :
    (∀ p ∈ streamAux lastT ls, gtLast lastT p.1 = true) ∧
      List.Pairwise (fun a b : Sample => a.1 < b.1) (streamAux lastT ls) := by
  induction lastT, ls using streamAux.induct with
  | case1 lastT ls hnone =>
      rw [streamAux_eq, hnone]
      simp
  | case2 lastT ls p r hsome ih =>
      rw [streamAux_eq, hsome]
      obtain ⟨ihMem, ihPair⟩ := ih
      constructor
      · intro q hq
        rcases List.mem_cons.mp hq with hq | hq
        · rw [hq]; exact nextAux_gtLast lastT ls p r hsome
        · have hgt := ihMem q hq
          have hp := nextAux_gtLast lastT ls p r hsome
          simp [gtLast] at hgt
          exact gtLast_trans lastT p.1 q.1 hp hgt
      · refine List.pairwise_cons.mpr ⟨?_, ihPair⟩
        intro q hq
        have hgt := ihMem q hq
        simp [gtLast] at hgt
        exact hgt

/-- A seek whose target is at or before the timestamp that `Next` would
yield behaves exactly like `Next`: same yielded sample, same successor
state. -/
theorem seekAux_eq_nextAux (lastT : Option Int) (ls : List (List Sample)) :
    ∀ target p r, nextAux lastT ls = some (p, r) → target ≤ p.1 →
      seekAux lastT target ls = some (p, r) := by
  induction ls using nextAux.induct lastT with
  | case1 => intro target p r h; simp [nextAux] at h
  | case2 cs ih =>
      intro target p r h hle
      rw [nextAux] at h
      rw [seekAux]
      exact ih target p r h hle
  | case3 p s cs hgt =>
      intro target q r h hle
      rw [nextAux, if_pos hgt] at h
      injection h with h2
      injection h2 with hpq hsr
      subst hpq
      subst hsr
      rw [seekAux]
      have hcond : (gtLast lastT p.1 && decide (target ≤ p.1)) = true := by
        rw [hgt]
        simp [hle]
      rw [if_pos hcond]
  | case4 p s cs hgt ih =>
      intro target q r h hle
      rw [nextAux] at h
      simp [hgt] at h
      rw [seekAux]
      have hgt' : ¬(gtLast lastT p.1 && decide (target ≤ p.1)) = true := by
        simp [hgt]
      simp only [hgt, Bool.false_and, if_neg hgt']
      exact ih target q r h hle

theorem streamAux_none (lastT : Option Int) (ls : List (List Sample))
    (h : nextAux lastT ls = none) : streamAux lastT ls = [] := by
  rw [streamAux_eq, h]

theorem streamAux_some (lastT : Option Int) (ls : List (List Sample))
    (p : Sample) (r : List (List Sample)) (h : nextAux lastT ls = some (p, r)) :
    streamAux lastT ls = p :: streamAux (some p.1) r := by
  rw [streamAux_eq, h]

theorem seriesIter_next_mk (lastT : Option Int) (ls : List (List Sample)) :
    SeriesIter.next ⟨ls, lastT, none⟩ =
      match nextAux lastT ls with
      | none => none
      | some (p, r) => some (p, ⟨r, some p.1, none⟩) := rfl

theorem seriesIter_seek_mk (lastT : Option Int) (target : Int) (ls : List (List Sample)) :
    SeriesIter.seek ⟨ls, lastT, none⟩ target =
      match seekAux lastT target ls with
      | none => none
      | some (p, r) => some (p, ⟨r, some p.1, none⟩) := rfl

/-- Consuming an error-free iterator by seeking, in order, to exactly the
timestamps of its `Next` stream reproduces that stream. -/
theorem seekRun_streamAux (lastT : Option Int) (ls : List (List Sample)) :
    seekRun ⟨ls, lastT, none⟩ ((streamAux lastT ls).map Prod.fst) = streamAux lastT ls := by
  induction lastT, ls using streamAux.induct with
  | case1 lastT ls hnone =>
      rw [streamAux_none lastT ls hnone]
      rfl
  | case2 lastT ls p r hsome ih =>
      rw [streamAux_some lastT ls p r hsome]
      rw [List.map_cons, seekRun, seriesIter_seek_mk,
        seekAux_eq_nextAux lastT ls p.1 p r hsome (le_refl p.1)]
      exact congrArg (List.cons p) ih

/-- Consuming an error-free iterator by alternating seeks (at the stream
timestamps, in order) and plain `Next` calls reproduces the `Next`
stream, whichever call the alternation starts with. -/
theorem altRun_streamAux (lastT : Option Int) (ls : List (List Sample)) :
    ∀ b, altRun ⟨ls, lastT, none⟩ b ((streamAux lastT ls).map Prod.fst) = streamAux lastT ls := by
  induction lastT, ls using streamAux.induct with
  | case1 lastT ls hnone =>
      intro b
      rw [streamAux_none lastT ls hnone]
      rfl
  | case2 lastT ls p r hsome ih =>
      intro b
      rw [streamAux_some lastT ls p r hsome]
      rw [List.map_cons, altRun]
      cases b with
      | true =>
          rw [if_pos rfl, seriesIter_seek_mk,
            seekAux_eq_nextAux lastT ls p.1 p r hsome (le_refl p.1)]
          exact congrArg (List.cons p) (ih false)
      | false =>
          have : (if (false = true) then SeriesIter.seek ⟨ls, lastT, none⟩ p.1
              else SeriesIter.next ⟨ls, lastT, none⟩) = SeriesIter.next ⟨ls, lastT, none⟩ := by
            simp
          rw [this, seriesIter_next_mk, hsome]
          exact congrArg (List.cons p) (ih true)

theorem nextAux_cons_nil (lastT : Option Int) (cs : List (List Sample)) :
    nextAux lastT ([] :: cs) = nextAux lastT cs := by
  rw [nextAux]

/-- The iterator skips an exhausted or empty chunk and keeps advancing
through the remaining chunk list. -/
theorem streamAux_skip_empty (lastT : Option Int) (cs : List (List Sample)) :
    streamAux lastT ([] :: cs) = streamAux lastT cs := by
  conv_lhs => rw [streamAux_eq]
  conv_rhs => rw [streamAux_eq]
  rw [nextAux_cons_nil]

theorem nextAux_all_empty (lastT : Option Int) (ls : List (List Sample))
    (h : ∀ l ∈ ls, l = []) : nextAux lastT ls = none := by
  induction ls with
  | nil => rw [nextAux]
  | cons c cs ih =>
      have hc : c = [] := h c (List.mem_cons_self c cs)
      subst hc
      rw [nextAux_cons_nil]
      exact ih fun l hl => h l (List.mem_cons_of_mem _ hl)

theorem mem_insertChunk (c x : Chunk) (ds : List Chunk) :
    x ∈ insertChunk c ds → x = c ∨ x ∈ ds := by
  induction ds with
  | nil =>
      intro h
      simp [insertChunk] at h
      exact Or.inl h
  | cons d ds ih =>
      intro h
      rw [insertChunk] at h
      split at h
      · rcases List.mem_cons.mp h with h | h
        · exact Or.inl h
        · exact Or.inr h
      · rcases List.mem_cons.mp h with h | h
        · exact Or.inr (List.mem_cons.mpr (Or.inl h))
        · rcases ih h with h | h
          · exact Or.inl h
          · exact Or.inr (List.mem_cons.mpr (Or.inr h))

theorem mem_sortChunks (cs : List Chunk) (x : Chunk) :
    x ∈ sortChunks cs → x ∈ cs := by
  induction cs with
  | nil => intro h; simp [sortChunks] at h
  | cons c cs ih =>
      intro h
      have h' : x ∈ insertChunk c (sortChunks cs) := h
      rcases mem_insertChunk c x (sortChunks cs) h' with h2 | h2
      · exact List.mem_cons.mpr (Or.inl h2)
      · exact List.mem_cons.mpr (Or.inr (ih h2))

/-- C1: for every chunk set merged by one series merge iterator, the
externally observed sample stream is strictly increasing in time: adjacent
yielded pairs satisfy tB > tA, and once a timestamp has been yielded no
later-processed chunk re-yields any point at or before it, so each distinct
timestamp appears at most once. -/
theorem claim_C1_merged_stream_strictly_increasing (chunks : List Chunk) :
    List.Chain' (fun a b : Sample => a.1 < b.1) (nextStream (mkSeriesIterator chunks)) ∧
      List.Pairwise (fun a b : Sample => a.1 < b.1) (nextStream (mkSeriesIterator chunks)) := by
  have hp : List.Pairwise (fun a b : Sample => a.1 < b.1)
      (nextStream (mkSeriesIterator chunks)) := by
    unfold nextStream
    split
    · exact List.Pairwise.nil
    · exact (streamAux_increasing _ _).2
  exact ⟨hp.chain', hp⟩

/-- C2: for a fixed chunk set, the merged, deduplicated, ordered sequence of
(timestamp, value) pairs is identical whether the caller advances only with
`Next`, only with `Seek` at the same cadence of timestamps, or alternates
both, starting with either call — the merged view is independent of the
access pattern. -/
theorem claim_C2_access_pattern_independence (chunks : List Chunk) :
    seekRun (mkSeriesIterator chunks)
        ((nextStream (mkSeriesIterator chunks)).map Prod.fst)
      = nextStream (mkSeriesIterator chunks) ∧
    ∀ b, altRun (mkSeriesIterator chunks) b
        ((nextStream (mkSeriesIterator chunks)).map Prod.fst)
      = nextStream (mkSeriesIterator chunks) := by
  unfold mkSeriesIterator
  split
  · exact ⟨rfl, fun b => rfl⟩
  · constructor
    · exact seekRun_streamAux none _
    · exact altRun_streamAux none _

/-- C9: a series whose chunk list is non-empty but where every chunk decodes
to zero points yields zero points and reports no error; an empty chunk
contributes nothing and the iterator keeps advancing through the remaining
chunk list. -/
theorem claim_C9_all_empty_chunks_no_points_no_error (chunks : List Chunk)
    (hne : chunks ≠ []) (hempty : ∀ c ∈ chunks, c.samples = []) :
    nextStream (mkSeriesIterator chunks) = [] ∧
      (mkSeriesIterator chunks).err = none ∧
      ∀ lastT cs, streamAux lastT ([] :: cs) = streamAux lastT cs := by
  have hiter : mkSeriesIterator chunks =
      ⟨(sortChunks chunks).map Chunk.samples, none, none⟩ := by
    unfold mkSeriesIterator
    rw [if_neg (by simpa using hne)]
  refine ⟨?_, ?_, streamAux_skip_empty⟩
  · rw [hiter]
    unfold nextStream
    simp only [Option.isSome_none, Bool.false_eq_true, if_false]
    apply streamAux_none
    apply nextAux_all_empty
    intro l hl
    rcases List.mem_map.mp hl with ⟨c, hc, hcl⟩
    rw [← hcl]
    exact hempty c (mem_sortChunks chunks c hc)
  · rw [hiter]

/-- C9 witness: a concrete two-chunk series with all chunks empty. -/
theorem claim_C9_witness :
    nextStream (mkSeriesIterator [⟨0, 10, []⟩, ⟨5, 7, []⟩]) = [] ∧
      (mkSeriesIterator [⟨0, 10, []⟩, ⟨5, 7, []⟩]).err = none := by
  have h := claim_C9_all_empty_chunks_no_points_no_error
    [⟨0, 10, []⟩, ⟨5, 7, []⟩] (by decide)
    (by intro c hc; fin_cases hc <;> rfl)
  exact ⟨h.1, h.2.1⟩

/-- C10: constructing a series iterator from an empty chunk list is treated
as an error at the public interface: it yields zero points and a non-nil
error stating there are no chunks. -/
theorem claim_C10_empty_chunk_list_is_error :
    (mkSeriesIterator []).err = some "no chunks" ∧
      nextStream (mkSeriesIterator []) = [] ∧
      (mkSeriesIterator []).next = none := by
  exact ⟨rfl, rfl, rfl⟩

/-! ## Query sharding middleware

Embedded from `pkg/querier/queryrange/querysharding.go`.  The PromQL
parser, the AST mapper and the next handler are external collaborators and
appear as parameters; the middleware logic itself is translated from the
source. -/

/-- Error types of the `apierror` taxonomy used by the middleware.  The
spec describes the evaluation error taxonomy as canceled, timeout, storage
and generic; the source also classifies parse failures as bad data. -/
inductive ApiErrorType
  | badData
  | canceled
  | timeout
  | storage
  | internal
  deriving DecidableEq, Repr

/-- Errors returned by the PromQL engine, distinguished by their cause, as
inspected by `mapEngineError`.  The message is opaque payload. -/
inductive EngineErr
  | queryCanceled (msg : String)
  | queryTimeout (msg : String)
  | storageErr (msg : String)
  | otherErr (msg : String)
  deriving DecidableEq, Repr

def EngineErr.msg : EngineErr → String
  | .queryCanceled m => m
  | .queryTimeout m => m
  | .storageErr m => m
  | .otherErr m => m

/-- An error carrying an `apierror` classification and a message, as built
by `apierror.New`. -/
structure ApiError where
  typ : ApiErrorType
  msg : String
  deriving DecidableEq, Repr

/-- `mapEngineError` from the source: a nil error maps to nil; otherwise the
error type defaults to internal and is overridden to canceled for
`promql.ErrQueryCanceled` and to timeout for `promql.ErrQueryTimeout`; the
`promql.ErrStorage` case explicitly sets internal as well. -/
def mapEngineError : Option EngineErr → Option ApiError
  | none => none
  | some e =>
      let errorType :=
        match e with
        | .queryCanceled _ => ApiErrorType.canceled
        | .queryTimeout _ => ApiErrorType.timeout
        | .storageErr _ => ApiErrorType.internal
        | .otherErr _ => ApiErrorType.internal
      some ⟨errorType, e.msg⟩

/-- An error surfaced by the planning step: either a classified API error
(as built by `apierror.New`) or a plain unclassified error, as returned by
the mapper constructor and the mapper itself. -/
inductive PlanError
  | apiErr (typ : ApiErrorType) (msg : String)
  | plainErr (msg : String)
  deriving DecidableEq, Repr

/-- External collaborators of `shardQuery`: the sharding mapper constructor
(`astmapper.NewSharding`), the PromQL parser (`parser.ParseExpr`) and the
mapper applied to a parsed expression (`mapper.Map` with its stats).  `Expr`
is the opaque parsed-expression type. -/
structure PlannerEnv (Expr : Type) where
  newSharding : Int → Except String Unit
  parseExpr : String → Except String Expr
  mapExpr : Expr → Int → Except String (String × Nat)

/-- `querySharding.shardQuery` from the source: build the sharding mapper
(plain error on failure), parse the query (bad-data API error on failure),
map the parsed expression (plain error on failure), and return the sharded
query string with the mapper stats. -/
def shardQuery {Expr : Type} (env : PlannerEnv Expr) (query : String)
    (totalShards : Int) : Except PlanError (String × Nat) :=
  match env.newSharding totalShards with
  | .error e => .error (.plainErr e)
  | .ok _ =>
      match env.parseExpr query with
      | .error e => .error (.apiErr .badData e)
      | .ok expr =>
          match env.mapExpr expr totalShards with
          | .error e => .error (.plainErr e)
          | .ok (shardedQuery, stats) => .ok (shardedQuery, stats)

/-- Per-request options of a query request: the shard count override and
the sharding-disabled flag. -/
structure Options where
  totalShards : Int
  shardingDisabled : Bool
  deriving DecidableEq, Repr

/-- A query request: the query string and its per-request options.  Time
range and step are opaque to the sharding decision and omitted. -/
structure Request where
  query : String
  options : Options
  deriving DecidableEq, Repr

/-- Collaborators of `querySharding.Do`: the per-tenant configured default
shard count, the planning step, the next handler in the pipeline and the
sharded execution path (engine + sharded queryable), abstracted by its
response. -/
structure ShardingEnv (Expr Resp : Type) where
  tenantDefaultShards : Int
  planner : PlannerEnv Expr
  next : Request → Resp
  execSharded : String → Resp

/-- Observable outcome of one `querySharding.Do` call: the response, the
shard count the decision used, whether the planner was invoked, how often
the sharding-attempts counter was incremented, and the request forwarded to
the next handler when the unsharded path was taken. -/
structure DoResult (Resp : Type) where
  response : Resp
  totalShardsUsed : Int
  plannerInvoked : Bool
  shardingAttemptsInc : Nat
  forwardedUnsharded : Option Request
  deriving Repr

/-- `querySharding.Do` from the source: compute the effective shard count
(request override when positive, else the tenant default); when sharding is
disabled for the request or the count is at most one, forward unsharded
without touching metrics or the planner; otherwise increment the attempts
counter and plan; on a planning error or zero sharded queries, forward the
original request unsharded; otherwise execute the rewritten query. -/
def querySharding.Do {Expr Resp : Type} (s : ShardingEnv Expr Resp)
    (r : Request) : DoResult Resp :=
  let totalShards :=
    if r.options.totalShards > 0 then r.options.totalShards
    else s.tenantDefaultShards
  if r.options.shardingDisabled || totalShards ≤ 1 then
    ⟨s.next r, totalShards, false, 0, some r⟩
  else
    match shardQuery s.planner r.query totalShards with
    | .error _ => ⟨s.next r, totalShards, true, 1, some r⟩
    | .ok (shardedQuery, shardedQueries) =>
        if shardedQueries = 0 then ⟨s.next r, totalShards, true, 1, some r⟩
        else ⟨s.execSharded shardedQuery, totalShards, true, 1, none⟩

/-- The effective shard count of a request, as the claim words it: the
request override when positive, else the configured tenant default. -/
def effectiveShards {Expr Resp : Type} (s : ShardingEnv Expr Resp) (r : Request) : Int :=
  if r.options.totalShards > 0 then r.options.totalShards else s.tenantDefaultShards

/-- C3: the Decide step computes the effective shard count as the request
override when positive and the configured tenant default otherwise; when
sharding is disabled for the request or the effective count is at most one,
the request is forwarded unsharded, the planner is never invoked, and the
sharding-attempts counter is not incremented. -/
theorem claim_C3_decide_unsharded {Expr Resp : Type} (s : ShardingEnv Expr Resp)
    (r : Request)
    (h : r.options.shardingDisabled = true ∨ effectiveShards s r ≤ 1) :
    (querySharding.Do s r).totalShardsUsed = effectiveShards s r ∧
      (querySharding.Do s r).plannerInvoked = false ∧
      (querySharding.Do s r).shardingAttemptsInc = 0 ∧
      (querySharding.Do s r).forwardedUnsharded = some r ∧
      (querySharding.Do s r).response = s.next r := by
  have hcond : (r.options.shardingDisabled || decide (effectiveShards s r ≤ 1)) = true := by
    rcases h with h | h
    · rw [h]; rfl
    · simp [h]
  unfold querySharding.Do
  rw [show (if r.options.totalShards > 0 then r.options.totalShards
      else s.tenantDefaultShards) = effectiveShards s r from rfl]
  rw [if_pos (by simpa using hcond)]
  exact ⟨rfl, rfl, rfl, rfl, rfl⟩

/-- C3 witness: a concrete environment in which sharding is disabled for
the request, and another in which the effective count is one. -/
theorem claim_C3_witness :
    ((querySharding.Do
        ⟨4, ⟨fun _ => .ok (), fun _ => .ok 0, fun _ _ => .ok ("q", 2)⟩,
          fun _ => (7 : Nat), fun _ => 9⟩
        ⟨"up", ⟨0, true⟩⟩).plannerInvoked = false ∧
      (querySharding.Do
        ⟨4, ⟨fun _ => .ok (), fun _ => .ok 0, fun _ _ => .ok ("q", 2)⟩,
          fun _ => (7 : Nat), fun _ => 9⟩
        ⟨"up", ⟨0, true⟩⟩).shardingAttemptsInc = 0) ∧
    ((querySharding.Do
        ⟨1, ⟨fun _ => .ok (), fun _ => .ok 0, fun _ _ => .ok ("q", 2)⟩,
          fun _ => (7 : Nat), fun _ => 9⟩
        ⟨"up", ⟨0, false⟩⟩).response = 7) := by
  refine ⟨?_, ?_⟩
  · have h := @claim_C3_decide_unsharded Nat Nat
      ⟨4, ⟨fun _ => .ok (), fun _ => .ok 0, fun _ _ => .ok ("q", 2)⟩,
        fun _ => (7 : Nat), fun _ => 9⟩
      ⟨"up", ⟨0, true⟩⟩ (Or.inl rfl)
    exact ⟨h.2.1, h.2.2.1⟩
  · have h := @claim_C3_decide_unsharded Nat Nat
      ⟨1, ⟨fun _ => .ok (), fun _ => .ok 0, fun _ _ => .ok ("q", 2)⟩,
        fun _ => (7 : Nat), fun _ => 9⟩
      ⟨"up", ⟨0, false⟩⟩ (Or.inr (by decide))
    exact h.2.2.2.2

/-- C4: when the request reaches the Plan step and the planner returns an
error, or returns success with zero sharded queries, the middleware does not
fail the request: it forwards the original, unmodified request to the next
handler and returns that handler's result. -/
theorem claim_C4_plan_failure_falls_back {Expr Resp : Type} (s : ShardingEnv Expr Resp)
    (r : Request)
    (hreach : ¬(r.options.shardingDisabled = true ∨ effectiveShards s r ≤ 1))
    (hplan : (∃ e, shardQuery s.planner r.query (effectiveShards s r) = .error e) ∨
      (∃ q, shardQuery s.planner r.query (effectiveShards s r) = .ok (q, 0))) :
    (querySharding.Do s r).forwardedUnsharded = some r ∧
      (querySharding.Do s r).response = s.next r := by
  have hcond : ¬((r.options.shardingDisabled || decide (effectiveShards s r ≤ 1)) = true) := by
    simp only [Bool.or_eq_true, decide_eq_true_eq]
    exact hreach
  unfold querySharding.Do
  rw [show (if r.options.totalShards > 0 then r.options.totalShards
      else s.tenantDefaultShards) = effectiveShards s r from rfl]
  rw [if_neg hcond]
  rcases hplan with ⟨e, he⟩ | ⟨q, hq⟩
  · rw [he]
    exact ⟨rfl, rfl⟩
  · rw [hq]
    exact ⟨rfl, rfl⟩

/-- C4 witness: a planner error and a zero-sharded-queries outcome, both on
a concrete environment with two effective shards. -/
theorem claim_C4_witness :
    ((@querySharding.Do Nat Nat
        ⟨2, ⟨fun _ => .ok (), fun _ => .error "parse failed", fun _ _ => .ok ("q", 2)⟩,
          fun _ => (7 : Nat), fun _ => 9⟩
        ⟨"sum(", ⟨0, false⟩⟩).response = 7) ∧
    ((querySharding.Do
        ⟨2, ⟨fun _ => .ok (), fun _ => .ok 0, fun _ _ => .ok ("up", 0)⟩,
          fun _ => (7 : Nat), fun _ => 9⟩
        ⟨"up", ⟨0, false⟩⟩).response = 7) := by
  constructor
  · exact (@claim_C4_plan_failure_falls_back Nat Nat
      ⟨2, ⟨fun _ => .ok (), fun _ => .error "parse failed", fun _ _ => .ok ("q", 2)⟩,
        fun _ => (7 : Nat), fun _ => 9⟩
      ⟨"sum(", ⟨0, false⟩⟩ (by decide)
      (Or.inl ⟨.apiErr .badData "parse failed", rfl⟩)).2
  · exact (@claim_C4_plan_failure_falls_back Nat Nat
      ⟨2, ⟨fun _ => .ok (), fun _ => .ok 0, fun _ _ => .ok ("up", 0)⟩,
        fun _ => (7 : Nat), fun _ => 9⟩
      ⟨"up", ⟨0, false⟩⟩ (by decide) (Or.inr ⟨"up", rfl⟩)).2

/-- C5: when the query fails to parse (and the mapper was constructed), the
planning step returns an error classified as bad data, a classification
distinct from the plain errors of internal planning failures, and the error
is surfaced to the caller as the result of the call. -/
theorem claim_C5_parse_failure_bad_data {Expr : Type} (env : PlannerEnv Expr)
    (query : String) (totalShards : Int) (e : String)
    (hns : env.newSharding totalShards = .ok ())
    (hp : env.parseExpr query = .error e) :
    shardQuery env query totalShards = .error (.apiErr .badData e) ∧
      ∀ m, PlanError.apiErr .badData e ≠ PlanError.plainErr m := by
  constructor
  · unfold shardQuery
    rw [hns, hp]
  · intro m h
    cases h

/-- C5 witness: a concrete planner environment whose parser rejects the
query. -/
theorem claim_C5_witness :
    @shardQuery Nat
        ⟨fun _ => .ok (), fun _ => .error "unexpected token", fun _ _ => .ok ("q", 1)⟩
        "sum(" 2
      = .error (.apiErr .badData "unexpected token") :=
  (claim_C5_parse_failure_bad_data
    ⟨fun _ => .ok (), fun _ => .error "unexpected token", fun _ _ => .ok ("q", 1)⟩
    "sum(" 2 "unexpected token" rfl rfl).1

/-- C6 counterexample: contrary to the claim, a storage error from the
engine is not mapped to the storage category: the source maps
`promql.ErrStorage` to the internal type. -/
theorem claim_C6_counterexample :
    mapEngineError (some (.storageErr "block corrupted")) ≠
      some ⟨ApiErrorType.storage, "block corrupted"⟩ ∧
    mapEngineError (some (.storageErr "block corrupted")) =
      some ⟨ApiErrorType.internal, "block corrupted"⟩ := by
  exact ⟨by decide, rfl⟩

/-- C6 (amended): `mapEngineError` maps nil to nil, a query-canceled error
to the canceled type, a query-timeout error to the timeout type, and both a
storage error and any other error to the generic internal type. -/
theorem claim_C6_engine_error_taxonomy :
    mapEngineError none = none ∧
      (∀ m, mapEngineError (some (.queryCanceled m)) = some ⟨ApiErrorType.canceled, m⟩) ∧
      (∀ m, mapEngineError (some (.queryTimeout m)) = some ⟨ApiErrorType.timeout, m⟩) ∧
      (∀ m, mapEngineError (some (.storageErr m)) = some ⟨ApiErrorType.internal, m⟩) ∧
      (∀ m, mapEngineError (some (.otherErr m)) = some ⟨ApiErrorType.internal, m⟩) :=
  ⟨rfl, fun _ => rfl, fun _ => rfl, fun _ => rfl, fun _ => rfl⟩

/-! ## Write-forwarding promise

Embedded from the forwarding `Promise` source file.  Errors stored in a
promise are either the dedicated timeout sentinel (`promiseTimeout` in the
source, created once by `errors.New`) or an application-level error, whose
recoverability models whether `errors.As` finds a `recoverableError` in
it.  The payload code stands for the error identity. -/

inductive PErr
  | timeoutSentinel
  | app (recoverable : Bool) (code : Nat)
  deriving DecidableEq, Repr

/-- Whether `errors.As(err, recoverableError)` succeeds on the error. -/
def PErr.isRecoverable : PErr → Bool
  | .timeoutSentinel => false
  | .app r _ => r

/-- The state of a `Promise` relevant to its outcome: the error-propagation
flag and the stored error.  `doneBeforeTimeout` records which side of the
`Wait` select fires: true when `done()` closes the channel before the
timeout timer. -/
structure PromiseState where
  propagateErrors : Bool
  doneBeforeTimeout : Bool
  err : Option PErr
  deriving DecidableEq, Repr

/-- `Promise.setError` from the source: nil errors and promises without
error propagation are ignored; the first error is stored; afterwards only a
recoverable error replaces a stored non-recoverable one. -/
def setError (s : PromiseState) (e : Option PErr) : PromiseState :=
  match e with
  | none => s
  | some e' =>
      if !s.propagateErrors then s
      else
        match s.err with
        | none => { s with err := some e' }
        | some cur =>
            if !cur.isRecoverable && e'.isRecoverable then { s with err := some e' }
            else s

/-- `Promise.Wait` from the source: when `done()` fires before the timeout
the state is untouched; when the timeout fires first the dedicated timeout
error is stored. -/
def wait (s : PromiseState) : PromiseState :=
  if s.doneBeforeTimeout then s else { s with err := some .timeoutSentinel }

/-- `Promise.Error` from the source: wait, then return the stored error. -/
def errorResult (s : PromiseState) : Option PErr :=
  (wait s).err

/-- The outcome the claim describes: the first recoverable error in the
sequence, else the first error. -/
def firstRecoverableWins (es : List PErr) : Option PErr :=
  match es.find? (fun e => e.isRecoverable) with
  | some e => some e
  | none => es.head?

theorem find_recoverable_of_stored_unrecoverable (cur : PErr) (es : List PErr) :
    (es.foldl (fun s e => setError s (some e))
        ⟨true, d, some cur⟩).err =
      if cur.isRecoverable then some cur
      else
        match es.find? (fun e => e.isRecoverable) with
        | some e => some e
        | none => some cur := by
  induction es generalizing cur with
  | nil =>
      cases h : cur.isRecoverable <;> simp [h]
  | cons e es ih =>
      rw [List.foldl_cons]
      cases hc : cur.isRecoverable with
      | true =>
          have : setError ⟨true, d, some cur⟩ (some e) = ⟨true, d, some cur⟩ := by
            unfold setError
            simp [hc]
          rw [this, ih cur]
          simp [hc]
      | false =>
          cases he : e.isRecoverable with
          | true =>
              have : setError ⟨true, d, some cur⟩ (some e) = ⟨true, d, some e⟩ := by
                unfold setError
                simp [hc, he]
              rw [this, ih e]
              simp [hc, he, List.find?_cons]
          | false =>
              have : setError ⟨true, d, some cur⟩ (some e) = ⟨true, d, some cur⟩ := by
                unfold setError
                simp [hc, he]
              rw [this, ih cur]
              simp [hc, he, List.find?_cons]

theorem foldl_setError_from_empty (es : List PErr) :
    (es.foldl (fun s e => setError s (some e)) ⟨true, d, none⟩).err =
      firstRecoverableWins es := by
  cases es with
  | nil => rfl
  | cons e es =>
      rw [List.foldl_cons]
      have : setError ⟨true, d, none⟩ (some e) = ⟨true, d, some e⟩ := by
        unfold setError
        simp
      rw [this, find_recoverable_of_stored_unrecoverable e es]
      unfold firstRecoverableWins
      cases he : e.isRecoverable with
      | true => simp [List.find?_cons, he]
      | false => simp [List.find?_cons, he]

/-- C7: with error propagation enabled, the stored outcome of a sequence of
`setError` calls follows first-recoverable-error-wins precedence: nil
errors are ignored, the first error is kept, a recoverable error replaces a
previously stored non-recoverable one, and once a recoverable error is
stored no later call replaces it.  Without propagation nothing is stored. -/
theorem claim_C7_first_recoverable_error_wins :
    (∀ s, setError s none = s) ∧
      (∀ d e, setError ⟨true, d, none⟩ (some e) = ⟨true, d, some e⟩) ∧
      (∀ d cur e, (setError ⟨true, d, some cur⟩ (some e)).err =
        if !cur.isRecoverable && e.isRecoverable then some e else some cur) ∧
      (∀ s e, s.propagateErrors = false → setError s (some e) = s) ∧
      (∀ d es, (es.foldl (fun s e => setError s (some e)) ⟨true, d, none⟩).err =
        firstRecoverableWins es) := by
  refine ⟨fun s => rfl, fun d e => by unfold setError; simp, ?_, ?_, ?_⟩
  · intro d cur e
    unfold setError
    cases h : (!cur.isRecoverable && e.isRecoverable) <;> simp [h]
  · intro s e hprop
    unfold setError
    rw [hprop]
    rfl
  · intro d es
    exact foldl_setError_from_empty es

/-- C7 witness: a concrete race in which a non-recoverable error arrives
first and a recoverable error second; the recoverable one wins, and a later
non-recoverable error does not replace it. -/
theorem claim_C7_witness :
    (([PErr.app false 1, PErr.app true 2, PErr.app false 3].foldl
        (fun s e => setError s (some e)) ⟨true, true, none⟩).err =
      firstRecoverableWins [PErr.app false 1, PErr.app true 2, PErr.app false 3]) ∧
    firstRecoverableWins [PErr.app false 1, PErr.app true 2, PErr.app false 3] =
      some (PErr.app true 2) ∧
    setError ⟨false, true, none⟩ (some (PErr.app true 2)) = ⟨false, true, none⟩ := by
  refine ⟨?_, by decide, ?_⟩
  · exact claim_C7_first_recoverable_error_wins.2.2.2.2 true
      [PErr.app false 1, PErr.app true 2, PErr.app false 3]
  · exact claim_C7_first_recoverable_error_wins.2.2.2.1
      ⟨false, true, none⟩ (PErr.app true 2) rfl

/-- C8: when `done()` never fires within the configured timeout, `Wait`
returns with the dedicated timeout error stored, so `Error` returns it; the
timeout error is distinguishable from every application-level error set via
`setError`; and when `done()` fires before the timeout, `Wait` leaves the
state untouched, storing no timeout error. -/
theorem claim_C8_timeout_error :
    (∀ s : PromiseState, errorResult s =
        if s.doneBeforeTimeout then s.err else some PErr.timeoutSentinel) ∧
      (∀ r c, PErr.timeoutSentinel ≠ PErr.app r c) ∧
      (∀ s : PromiseState, s.doneBeforeTimeout = true → wait s = s) := by
  refine ⟨?_, ?_, ?_⟩
  · intro s
    unfold errorResult wait
    cases h : s.doneBeforeTimeout <;> simp [h]
  · intro r c h
    cases h
  · intro s h
    unfold wait
    rw [h]
    rfl

/-- C8 witness: a promise that times out returns the timeout sentinel even
though an application error was never set, and a promise that completes in
time keeps nil. -/
theorem claim_C8_witness :
    errorResult ⟨false, false, none⟩ = some PErr.timeoutSentinel ∧
      wait ⟨true, true, none⟩ = ⟨true, true, none⟩ ∧
      PErr.timeoutSentinel ≠ PErr.app true 5 := by
  refine ⟨?_, ?_, ?_⟩
  · rw [claim_C8_timeout_error.1 ⟨false, false, none⟩]
    rfl
  · exact claim_C8_timeout_error.2.2 ⟨true, true, none⟩ rfl
  · exact claim_C8_timeout_error.2.1 true 5

end Mimir
